import Mathlib

/-!
Shallow embedding of `src/scripts/clean_subtitle.py` (class `SubtitleCleaner`)
and proofs about it: segment extraction, duplicate removal, short-fragment
merging, paragraph formatting, regex-based text cleanup, and the
language-specific `zh` rules.

Python strings are modelled as `String` at the fragment level and as
`List Char` at the character level.  Python `re.sub` / `re.split` calls are
modelled by structurally recursive scanners that follow the left-to-right,
leftmost-match, non-overlapping semantics of the `re` module (with `.` not
matching a newline, as in Python without `re.DOTALL`).
-/

namespace CleanSubtitle

/-- Characters of Python `\s`, restricted to the ASCII range (Python also
matches a few rare Unicode spaces; no claim depends on those). -/
def isPySpace (c : Char) : Bool :=
  c = ' ' || c = '\t' || c = '\n' || c = '\r' || c = '\x0b' || c = '\x0c'

/-- Sentence-ending marks `[.!?]` used by `format_paragraphs`. -/
def isMark (c : Char) : Bool :=
  c = '.' || c = '!' || c = '?'

/-! ## Deduplicator: `SubtitleCleaner.remove_duplicates` -/
/-- Tail of the model of `SubtitleCleaner.remove_duplicates`: the Python loop
appends `segments[i]` exactly when it differs from its original neighbour
`segments[i-1]`; `prev` is that original neighbour. -/
def removeDupRest (prev : String) : List String → List String
  | [] => []
  | y :: ys => if y ≠ prev then y :: removeDupRest y ys else removeDupRest y ys

/-- Model of `SubtitleCleaner.remove_duplicates`: keep the first fragment,
then keep each later fragment iff it differs from its original neighbour. -/
def remove_duplicates : List String → List String
  | [] => []
  | x :: xs => x :: removeDupRest x xs

/-- The `duplicates_removed` counter of `SubtitleCleaner.remove_duplicates`:
number of indices `i ≥ 1` with `segments[i] == segments[i-1]`. -/
def removedDupCount : List String → Nat
  | [] => 0
  | [_] => 0
  | x :: y :: rest => (if y = x then 1 else 0) + removedDupCount (y :: rest)

/-- Deduplicator following the specification's words (for the refinement
claim): keep a later fragment iff it differs from the text of the
immediately preceding kept (surviving) fragment `lastKept`. -/
def dedupSpecAux (lastKept : String) : List String → List String
  | [] => []
  | y :: ys => if y ≠ lastKept then y :: dedupSpecAux y ys else dedupSpecAux lastKept ys

/-- Specification-side Deduplicator (see `dedupSpecAux`). -/
def remove_duplicates_spec : List String → List String
  | [] => []
  | x :: xs => x :: dedupSpecAux x xs

/-- Specification-side removed counter: count fragments equal to the last
surviving fragment. -/
def dedupSpecCount (lastKept : String) : List String → Nat
  | [] => 0
  | y :: ys => if y ≠ lastKept then dedupSpecCount y ys else 1 + dedupSpecCount lastKept ys

/-- Specification-side removed counter, whole-sequence version. -/
def removedSpecCount : List String → Nat
  | [] => 0
  | x :: xs => dedupSpecCount x xs

/-! ## Fragment Merger: `SubtitleCleaner.merge_consecutive_segments` -/
/-- Model of `SubtitleCleaner.merge_consecutive_segments`: a single greedy
left-to-right pass; a fragment shorter than `min_length` with a successor is
joined to the successor with one space and the cursor advances by two. -/
def merge_consecutive_segments (min_length : Nat) : List String → List String
  | [] => []
  | [x] => [x]
  | x :: y :: rest =>
    if x.length < min_length then
      (x ++ " " ++ y) :: merge_consecutive_segments min_length rest
    else
      x :: merge_consecutive_segments min_length (y :: rest)

/-- Model of Python `' '.join` on the fragment list. -/
def joinSpace : List String → String
  | [] => ""
  | [x] => x
  | x :: y :: rest => x ++ " " ++ joinSpace (y :: rest)

/-! ## Character-level strings and Python `str.strip` -/
/-- Character-level model of a Python string. -/
abbrev Str := List Char

/-- Model of Python `str.strip()`: drop whitespace from both ends. -/
def pyStrip (s : Str) : Str :=
  ((s.dropWhile isPySpace).reverse.dropWhile isPySpace).reverse

/-! ## JSON3 document model: `load_json3_file` and `extract_text_segments` -/
/-- A JSON3 sub-segment: the `utf8` text field may be absent. -/
structure Seg where
  utf8 : Option String

/-- A JSON3 event: the `segs` fragment list may be absent. -/
structure Event where
  segs : Option (List Seg)

/-- A parsed JSON3 document: the top-level `events` list may be absent. -/
structure Json3Doc where
  events : Option (List Event)

/-- Model of `SubtitleCleaner.load_json3_file` after JSON parsing: raise
`ValueError` (here `Except.error`) exactly when `events` is missing. -/
def load_json3_file (d : Json3Doc) : Except String Json3Doc :=
  match d.events with
  | none => Except.error "Invalid JSON3 format: missing events field"
  | some _ => Except.ok d

/-- Inner loop of `SubtitleCleaner.extract_text_segments` over one event's
`segs` list: keep `seg['utf8'].strip()` when the field exists and the
stripped text is non-empty. -/
def extractSegs : List Seg → List String
  | [] => []
  | s :: ss =>
    (match s.utf8 with
     | some t => if pyStrip t.toList ≠ [] then [(pyStrip t.toList).asString] else []
     | none => []) ++ extractSegs ss

/-- Outer loop of `SubtitleCleaner.extract_text_segments` over the events:
an event without a `segs` field contributes nothing. -/
def extractEvents : List Event → List String
  | [] => []
  | e :: es =>
    (match e.segs with
     | some segs => extractSegs segs
     | none => []) ++ extractEvents es

/-- Model of `SubtitleCleaner.extract_text_segments`: `data.get('events', [])`
then the nested loops. -/
def extract_text_segments (d : Json3Doc) : List String :=
  extractEvents (d.events.getD [])

/-! ## Span removal: the three `re.sub(r'\[.*?\]', '', ...)`-style passes -/
/-- Scanner for the non-greedy tail `.*?` of a span pattern: find the first
closer `c` with no newline before it (Python `.` does not match `'\n'`);
return the remainder after the closer. -/
def findClose (c : Char) : Str → Option Str
  | [] => none
  | x :: rest =>
    if x = c then some rest
    else if x = '\n' then none
    else findClose c rest

/-- Left-to-right scanner of one `re.sub` span-removal pass for the
opener/closer pair `(o, c)`: in normal mode (`mode = false`) a position
holding the opener with a reachable closer starts a match and the scanner
switches to span mode, consuming characters up to and including the first
closer; every other character is kept. -/
def rsGo (o c : Char) : Bool → Str → Str
  | _, [] => []
  | true, x :: rest => if x = c then rsGo o c false rest else rsGo o c true rest
  | false, x :: rest =>
    if x = o ∧ (findClose c rest).isSome then rsGo o c true rest
    else x :: rsGo o c false rest

/-- One span-removal substitution of `SubtitleCleaner.clean_text`. -/
def removeSpans (o c : Char) (s : Str) : Str := rsGo o c false s

/-- A complete span: an opener with a closer somewhere after it. -/
def containsSpan (o c : Char) : Str → Bool
  | [] => false
  | x :: rest => if x = o then rest.contains c || containsSpan o c rest else containsSpan o c rest

/-- A complete span lying within a single line: an opener whose closer is
reachable with no intervening newline. -/
def hasLineSpan (o c : Char) : Str → Bool
  | [] => false
  | x :: rest =>
    if x = o then (findClose c rest).isSome || hasLineSpan o c rest
    else hasLineSpan o c rest

/-! ## Language-specific cleaning for `zh` -/
/-- Characters of the CJK ideograph block `[一-鿿]`. -/
def isCJK (c : Char) : Bool :=
  decide (0x4e00 ≤ c.toNat ∧ c.toNat ≤ 0x9fff)

/-- Characters of `[a-zA-Z0-9]`. -/
def isLatinDigit (c : Char) : Bool :=
  decide ((0x61 ≤ c.toNat ∧ c.toNat ≤ 0x7a) ∨ (0x41 ≤ c.toNat ∧ c.toNat ≤ 0x5a) ∨
    (0x30 ≤ c.toNat ∧ c.toNat ≤ 0x39))

/-- Skip whitespace; true when the first non-whitespace character is CJK. -/
def afterSpacesCJK : Str → Bool
  | [] => false
  | x :: rest => if isPySpace x then afterSpacesCJK rest else isCJK x

/-- True when the text begins with at least one whitespace character
followed, after possibly more whitespace, by a CJK character: the
`\s+(CJK)` tail of the first `zh` pattern. -/
def spacesThenCJK : Str → Bool
  | [] => false
  | x :: rest => isPySpace x && afterSpacesCJK rest

/-- Scanner of the first `zh` substitution
`re.sub(r'(CJK)\s+(CJK)', r'\1\2', text)`: in gap mode (`true`) the matched
whitespace run is dropped and the closing CJK character is emitted without
being reconsidered as the left anchor of a further match, exactly as the
`re` scanner resumes after a match. -/
def zhGapGo : Bool → Str → Str
  | _, [] => []
  | true, x :: rest => if isPySpace x then zhGapGo true rest else x :: zhGapGo false rest
  | false, x :: rest =>
    if isCJK x && spacesThenCJK rest then x :: zhGapGo true rest
    else x :: zhGapGo false rest

/-- First `zh` substitution: remove whitespace between adjacent CJK pairs. -/
def zhRemoveGaps (s : Str) : Str := zhGapGo false s

/-- Scanner of `re.sub(r'(CJK)([a-zA-Z0-9])', r'\1 \2', text)`: both matched
characters are kept with a space inserted between them, and scanning
resumes after the second one. -/
def zhCJKLatin : Str → Str
  | [] => []
  | [c] => [c]
  | c :: d :: rest =>
    if isCJK c && isLatinDigit d then c :: ' ' :: d :: zhCJKLatin rest
    else c :: zhCJKLatin (d :: rest)

/-- Scanner of `re.sub(r'([a-zA-Z0-9])(CJK)', r'\1 \2', text)`. -/
def zhLatinCJK : Str → Str
  | [] => []
  | [c] => [c]
  | c :: d :: rest =>
    if isLatinDigit c && isCJK d then c :: ' ' :: d :: zhLatinCJK rest
    else c :: zhLatinCJK (d :: rest)

/-- The `zh` branch of `SubtitleCleaner._language_specific_cleaning`, the
three substitutions in source order. -/
def language_specific_cleaning_zh (s : Str) : Str :=
  zhLatinCJK (zhCJKLatin (zhRemoveGaps s))

/-- Some CJK character directly followed by a Latin letter or digit. -/
def hasCJKLatinAdj : Str → Bool
  | [] => false
  | [_] => false
  | c :: d :: rest => (isCJK c && isLatinDigit d) || hasCJKLatinAdj (d :: rest)

/-- Some Latin letter or digit directly followed by a CJK character. -/
def hasLatinCJKAdj : Str → Bool
  | [] => false
  | [_] => false
  | c :: d :: rest => (isLatinDigit c && isCJK d) || hasLatinCJKAdj (d :: rest)

/-- Some pair of CJK characters separated by whitespace only (at least one
whitespace character). -/
def hasCJKGap : Str → Bool
  | [] => false
  | x :: rest => (isCJK x && spacesThenCJK rest) || hasCJKGap rest

/-! ## Paragraph formatting: `SubtitleCleaner.format_paragraphs` -/
/-- Characters of Python `\w`, restricted to ASCII letters, digits and the
underscore (the claims do not depend on the wider Unicode word class). -/
def isWordChar (c : Char) : Bool := c.isAlphanum || c = '_'

/-- True when the text, after skipping whitespace, continues with a
sentence-ending mark: the lookahead used by the scanner of
`re.sub(r'\s+([.!?])', r'\1', text)`. -/
def markAfterSpaces : Str → Bool
  | [] => false
  | x :: rest => if isMark x then true else if isPySpace x then markAfterSpaces rest else false

/-- Scanner of `re.sub(r'\s+([.!?])', r'\1', text)`: a whitespace character
belongs to a matched (and hence deleted) run exactly when the remaining
characters, after more whitespace, reach a sentence-ending mark; the mark
itself is kept. -/
def subWsMark : Str → Str
  | [] => []
  | x :: rest =>
    if isPySpace x && markAfterSpaces rest then subWsMark rest
    else x :: subWsMark rest

/-- Scanner of `re.sub(r'([.!?])(\w)', r'\1 \2', text)`: both matched
characters are kept with a space inserted between them, and scanning
resumes after the word character. -/
def subMarkWord : Str → Str
  | [] => []
  | [c] => [c]
  | c :: d :: rest =>
    if isMark c && isWordChar d then c :: ' ' :: d :: subMarkWord rest
    else c :: subMarkWord (d :: rest)

/-- Scanner of `re.split(r'(?<=[.!?])\s+', text)`: the first flag records
that the scanner is inside a matched whitespace run (consumed greedily),
`pm` records whether the previously consumed character was a
sentence-ending mark (the lookbehind), `cur` accumulates the current piece
in reverse. -/
def splitGo : Bool → Bool → Str → Str → List Str
  | _, _, cur, [] => [cur.reverse]
  | true, _, _, c :: rest =>
    if isPySpace c then splitGo true false [] rest
    else splitGo false (isMark c) [c] rest
  | false, pm, cur, c :: rest =>
    if pm && isPySpace c then cur.reverse :: splitGo true false [] rest
    else splitGo false (isMark c) (c :: cur) rest

/-- The sentence list of step (c) of `format_paragraphs`. -/
def splitSentences (l : Str) : List Str := splitGo false false [] l

/-- Python `sentence.endswith(('.', '?', '!'))`. -/
def endsWithMark (s : Str) : Bool :=
  match s.getLast? with
  | some c => isMark c
  | none => false

/-- Python `str.lower()` per character (adequate for the fixed ASCII
discourse markers). -/
def lowerStr (s : Str) : Str := s.map Char.toLower

/-- Prefix test used by `isSubstring`. -/
def startsWith : Str → Str → Bool
  | [], _ => true
  | _ :: _, [] => false
  | p :: ps, x :: xs => if p = x then startsWith ps xs else false

/-- Substring test (Python `in` on strings). -/
def isSubstring (pat : Str) : Str → Bool
  | [] => pat.isEmpty
  | x :: rest => startsWith pat (x :: rest) || isSubstring pat rest

/-- Python `any(indicator in sentence.lower() for indicator in [...])`:
substring test against the four discourse markers. -/
def hasIndicator (s : Str) : Bool :=
  isSubstring "however".toList (lowerStr s) ||
  isSubstring "therefore".toList (lowerStr s) ||
  isSubstring "moreover".toList (lowerStr s) ||
  isSubstring "furthermore".toList (lowerStr s)

/-- The paragraph-accumulation loop of `format_paragraphs`: strip each
sentence, skip empties, close the buffer once it holds at least three
sentences and the sentence ends with a mark or contains a discourse
marker; any leftover buffer becomes a final paragraph. -/
def groupSentsAux (buf : List Str) : List Str → List (List Str)
  | [] => if buf.isEmpty then [] else [buf]
  | p :: rest =>
    if (pyStrip p).isEmpty then groupSentsAux buf rest
    else if 3 ≤ (buf ++ [pyStrip p]).length ∧
        (endsWithMark (pyStrip p) || hasIndicator (pyStrip p)) = true then
      (buf ++ [pyStrip p]) :: groupSentsAux [] rest
    else groupSentsAux (buf ++ [pyStrip p]) rest

/-- Paragraphs of `format_paragraphs` as sentence groups, before joining. -/
def groupSents (pieces : List Str) : List (List Str) := groupSentsAux [] pieces

/-- Model of Python `' '.join` at character level. -/
def joinSpaceL : List Str → Str
  | [] => []
  | [x] => x
  | x :: y :: rest => x ++ ' ' :: joinSpaceL (y :: rest)

/-- Model of `'\n\n'.join(paragraphs)`. -/
def nlJoin : List Str → Str
  | [] => []
  | [x] => x
  | x :: y :: rest => x ++ '\n' :: '\n' :: nlJoin (y :: rest)

/-- Model of `SubtitleCleaner.format_paragraphs` on character-level
fragments: join with spaces, normalize punctuation spacing, split into
sentences, group into paragraphs, join paragraphs with a double line
break. -/
def format_paragraphs (segments : List Str) : Str :=
  nlJoin ((groupSents (splitSentences (subMarkWord (subWsMark (joinSpaceL segments))))).map
    joinSpaceL)

/-- Scanner of `re.sub(r'\s+', ' ', text)`: each maximal whitespace run is
replaced by a single space. -/
def collapseWs : Str → Str
  | [] => []
  | c :: rest =>
    if isPySpace c then
      match rest with
      | [] => [' ']
      | d :: _ => if isPySpace d then collapseWs rest else ' ' :: collapseWs rest
    else c :: collapseWs rest

/-- Model of `SubtitleCleaner.clean_text` with `language_code=None`: the
three span removals, whitespace collapsing, and strip.  (With a language
code the code afterwards applies the language-specific cleaning, modelled
for `zh` by `language_specific_cleaning_zh`.) -/
def clean_text (text : Str) : Str :=
  pyStrip (collapseWs (removeSpans '<' '>' (removeSpans '(' ')' (removeSpans '[' ']' text))))

/-! ## Trimmed-text predicates and preservation lemmas (towards C5) -/
/-- The first character, if any, is not whitespace. -/
def headNoSpace (s : Str) : Bool :=
  match s.head? with
  | some c => !isPySpace c
  | none => true

/-- The last character, if any, is not whitespace. -/
def lastNoSpace (s : Str) : Bool :=
  match s.getLast? with
  | some c => !isPySpace c
  | none => true

/-! ## Theorems -/

/-! ## Helper lemmas for the fragment-level stages -/
theorem str_append_assoc (a b c : String) : a ++ b ++ c = a ++ (b ++ c) := by
  cases a with
  | mk da =>
    cases b with
    | mk db =>
      cases c with
      | mk dc =>
        show String.mk (da ++ db ++ dc) = String.mk (da ++ (db ++ dc))
        rw [List.append_assoc]

theorem dedupSpecAux_eq (xs : List String) :
    ∀ prev, dedupSpecAux prev xs = removeDupRest prev xs := by
  induction xs with
  | nil => intro prev; rfl
  | cons y ys ih =>
    intro prev
    by_cases h : y = prev
    · subst h
      simp [dedupSpecAux, removeDupRest, ih]
    · simp [dedupSpecAux, removeDupRest, h, ih]

theorem dedupSpecCount_eq (xs : List String) :
    ∀ prev, dedupSpecCount prev xs = removedDupCount (prev :: xs) := by
  induction xs with
  | nil => intro prev; rfl
  | cons y ys ih =>
    intro prev
    by_cases h : y = prev
    · subst h
      simp [dedupSpecCount, removedDupCount, ih]
    · simp [dedupSpecCount, removedDupCount, h, ih]

theorem removeDupRest_length_le (xs : List String) :
    ∀ prev, (removeDupRest prev xs).length ≤ xs.length := by
  induction xs with
  | nil => intro prev; simp [removeDupRest]
  | cons y ys ih =>
    intro prev
    by_cases h : y = prev
    · subst h
      simpa [removeDupRest] using Nat.le_succ_of_le (ih y)
    · simpa [removeDupRest, h] using Nat.succ_le_succ (ih y)

theorem chain_removeDupRest (xs : List String) :
    ∀ prev, List.Chain' (· ≠ ·) (prev :: removeDupRest prev xs) := by
  induction xs with
  | nil => intro prev; simp [removeDupRest]
  | cons y ys ih =>
    intro prev
    by_cases h : y = prev
    · subst h
      simpa [removeDupRest] using ih y
    · simp only [removeDupRest, if_pos h]
      exact List.chain'_cons.mpr ⟨Ne.symm h, ih y⟩

theorem removeDupRest_of_chain (xs : List String) :
    ∀ prev, List.Chain' (· ≠ ·) (prev :: xs) → removeDupRest prev xs = xs := by
  induction xs with
  | nil => intro prev _; rfl
  | cons y ys ih =>
    intro prev hch
    rcases List.chain'_cons.mp hch with ⟨hne, hch2⟩
    simp only [removeDupRest, if_pos (Ne.symm hne)]
    rw [ih y hch2]

theorem merge_eq_nil_iff (n : Nat) (l : List String) :
    merge_consecutive_segments n l = [] ↔ l = [] := by
  cases l with
  | nil => simp [merge_consecutive_segments]
  | cons x xs =>
    cases xs with
    | nil => simp [merge_consecutive_segments]
    | cons y rest =>
      simp only [merge_consecutive_segments]
      split <;> simp

theorem joinSpace_merge_head (a b : String) (m : List String) :
    joinSpace ((a ++ " " ++ b) :: m) = a ++ " " ++ joinSpace (b :: m) := by
  cases m with
  | nil => rfl
  | cons z zs =>
    show (a ++ " " ++ b) ++ " " ++ joinSpace (z :: zs)
        = a ++ " " ++ (b ++ " " ++ joinSpace (z :: zs))
    simp only [str_append_assoc]

theorem joinSpace_congr_cons (s : String) (m1 m2 : List String)
    (hnil : m1 = [] ↔ m2 = []) (hjoin : joinSpace m1 = joinSpace m2) :
    joinSpace (s :: m1) = joinSpace (s :: m2) := by
  cases m1 with
  | nil =>
    have h2 : m2 = [] := hnil.mp rfl
    subst h2; rfl
  | cons a as =>
    cases m2 with
    | nil =>
      exact absurd (hnil.mpr rfl) (by simp)
    | cons b bs =>
      show s ++ " " ++ joinSpace (a :: as) = s ++ " " ++ joinSpace (b :: bs)
      rw [hjoin]

/-! ## Claim theorems for the Deduplicator and the Fragment Merger -/
/-- C3: the Deduplicator that compares each fragment against the last
surviving fragment computes the same output and the same removed count as
the implementation, which compares against the original previous neighbour;
three identical fragments in a row collapse to one. -/
theorem c3_dedup_refinement (l : List String) :
    remove_duplicates_spec l = remove_duplicates l ∧
    removedSpecCount l = removedDupCount l ∧
    remove_duplicates ["a", "a", "a"] = ["a"] := by
  refine ⟨?_, ?_, by decide⟩
  · cases l with
    | nil => rfl
    | cons x xs =>
      show x :: dedupSpecAux x xs = x :: removeDupRest x xs
      rw [dedupSpecAux_eq]
  · cases l with
    | nil => rfl
    | cons x xs =>
      show dedupSpecCount x xs = removedDupCount (x :: xs)
      exact dedupSpecCount_eq xs x

/-- C7: the Deduplicator is idempotent: applying it to its own output gives
that output unchanged. -/
theorem c7_dedup_idempotent (l : List String) :
    remove_duplicates (remove_duplicates l) = remove_duplicates l := by
  cases l with
  | nil => rfl
  | cons x xs =>
    show remove_duplicates (x :: removeDupRest x xs) = x :: removeDupRest x xs
    show x :: removeDupRest x (removeDupRest x xs) = x :: removeDupRest x xs
    rw [removeDupRest_of_chain _ _ (chain_removeDupRest xs x)]

/-- C8: the Deduplicator never lengthens the sequence, its output has no two
adjacent equal elements, and the empty input yields the empty output with a
zero removed count. -/
theorem c8_dedup_invariants (l : List String) :
    (remove_duplicates l).length ≤ l.length ∧
    List.Chain' (· ≠ ·) (remove_duplicates l) ∧
    remove_duplicates ([] : List String) = [] ∧
    removedDupCount ([] : List String) = 0 := by
  refine ⟨?_, ?_, rfl, rfl⟩
  · cases l with
    | nil => simp [remove_duplicates]
    | cons x xs =>
      simpa [remove_duplicates] using Nat.succ_le_succ (removeDupRest_length_le xs x)
  · cases l with
    | nil => simp [remove_duplicates]
    | cons x xs =>
      simpa [remove_duplicates] using chain_removeDupRest xs x

/-- C2 as stated is false on the code: with threshold 10 the input
`["a","b","c"]` merges to `["a b","c"]`, whose first output fragment has
length 3 < 10 although it is not the final fragment. -/
theorem c2_counterexample :
    ¬ (∀ (n : Nat) (l : List String) (i : Nat),
        i + 1 < (merge_consecutive_segments n l).length →
        n ≤ ((merge_consecutive_segments n l).getD i "").length) := by
  intro h
  have h2 := h 10 ["a", "b", "c"] 0 (by decide)
  revert h2
  decide

/-- C2 (amended): the Fragment Merger never lengthens the sequence, and every
output fragment other than the final one either meets the threshold or is a
merged fragment, i.e. a short fragment joined to its successor with one
space (the merged result is not re-checked against the threshold). -/
theorem c2_merger_length_and_threshold (n : Nat) (l : List String) :
    (merge_consecutive_segments n l).length ≤ l.length ∧
    (∀ i : Nat, i + 1 < (merge_consecutive_segments n l).length →
      n ≤ ((merge_consecutive_segments n l).getD i "").length ∨
      ∃ a b : String, a.length < n ∧
        (merge_consecutive_segments n l).getD i "" = a ++ " " ++ b) := by
  constructor
  · induction l using merge_consecutive_segments.induct n with
    | case1 => simp [merge_consecutive_segments]
    | case2 x => simp [merge_consecutive_segments]
    | case3 x y rest h ih =>
      simp only [merge_consecutive_segments, if_pos h, List.length_cons]
      exact Nat.succ_le_succ (Nat.le_succ_of_le ih)
    | case4 x y rest h ih =>
      simp only [merge_consecutive_segments, if_neg h, List.length_cons]
      exact Nat.succ_le_succ ih
  · induction l using merge_consecutive_segments.induct n with
    | case1 => intro i hi; simp [merge_consecutive_segments] at hi
    | case2 x => intro i hi; simp [merge_consecutive_segments] at hi
    | case3 x y rest h ih =>
      intro i hi
      simp only [merge_consecutive_segments, if_pos h] at hi ⊢
      cases i with
      | zero => exact Or.inr ⟨x, y, h, rfl⟩
      | succ j =>
        simp only [List.getD_cons_succ]
        exact ih j (by simpa [Nat.succ_lt_succ_iff] using hi)
    | case4 x y rest h ih =>
      intro i hi
      simp only [merge_consecutive_segments, if_neg h] at hi ⊢
      cases i with
      | zero => exact Or.inl (Nat.le_of_not_lt h)
      | succ j =>
        simp only [List.getD_cons_succ]
        exact ih j (by simpa [Nat.succ_lt_succ_iff] using hi)

/-- Witness for `c2_merger_length_and_threshold` at threshold 10 and input
`["a","b","c"]`: the first output fragment is the merged `"a b"`. -/
theorem c2_merger_witness :
    (merge_consecutive_segments 10 ["a", "b", "c"]).length ≤ 3 ∧
    (10 ≤ ((merge_consecutive_segments 10 ["a", "b", "c"]).getD 0 "").length ∨
      ∃ a b : String, a.length < 10 ∧
        (merge_consecutive_segments 10 ["a", "b", "c"]).getD 0 "" = a ++ " " ++ b) :=
  ⟨(c2_merger_length_and_threshold 10 ["a", "b", "c"]).1,
    (c2_merger_length_and_threshold 10 ["a", "b", "c"]).2 0 (by decide)⟩

/-- C10: the Fragment Merger preserves content: joining its output with
single spaces equals joining its input with single spaces. -/
theorem c10_merge_preserves_join (n : Nat) (l : List String) :
    joinSpace (merge_consecutive_segments n l) = joinSpace l := by
  induction l using merge_consecutive_segments.induct n with
  | case1 => rfl
  | case2 x => rfl
  | case3 x y rest h ih =>
    simp only [merge_consecutive_segments, if_pos h]
    rw [joinSpace_merge_head]
    show _ = joinSpace (x :: y :: rest)
    rw [show joinSpace (x :: y :: rest) = x ++ " " ++ joinSpace (y :: rest) from rfl]
    have hcongr := joinSpace_congr_cons y (merge_consecutive_segments n rest) rest
      (merge_eq_nil_iff n rest) ih
    rw [hcongr]
  | case4 x y rest h ih =>
    simp only [merge_consecutive_segments, if_neg h]
    have hne : merge_consecutive_segments n (y :: rest) = [] ↔ (y :: rest) = [] :=
      merge_eq_nil_iff n (y :: rest)
    exact joinSpace_congr_cons x _ _ hne ih

theorem extractEvents_ignores (e : Event) (he : e.segs = none) (l1 l2 : List Event) :
    extractEvents (l1 ++ e :: l2) = extractEvents (l1 ++ l2) := by
  induction l1 with
  | nil => simp [extractEvents, he]
  | cons f fs ih => simp [extractEvents, ih]

theorem extractSegs_ignores (s : Seg) (hs : s.utf8 = none) (m1 m2 : List Seg) :
    extractSegs (m1 ++ s :: m2) = extractSegs (m1 ++ m2) := by
  induction m1 with
  | nil => simp [extractSegs, hs]
  | cons t ts ih => simp [extractSegs, ih]

/-- C9: loading fails exactly when the document lacks the top-level event
list, and non-conforming events (no fragment list) and fragments (no text
field) are ignored by segment extraction rather than causing a failure. -/
theorem c9_error_handling (d : Json3Doc) (e : Event) (s : Seg)
    (l1 l2 : List Event) (m1 m2 : List Seg)
    (he : e.segs = none) (hs : s.utf8 = none) :
    ((load_json3_file d).isOk = false ↔ d.events = none) ∧
    extractEvents (l1 ++ e :: l2) = extractEvents (l1 ++ l2) ∧
    extractSegs (m1 ++ s :: m2) = extractSegs (m1 ++ m2) := by
  refine ⟨?_, extractEvents_ignores e he l1 l2, extractSegs_ignores s hs m1 m2⟩
  cases hd : d.events with
  | none => simp [load_json3_file, hd, Except.isOk, Except.toBool]
  | some evs => simp [load_json3_file, hd, Except.isOk, Except.toBool]

/-- Witness for `c9_error_handling` on a document missing `events`, an event
missing `segs`, and a fragment missing `utf8`. -/
theorem c9_witness :
    ((load_json3_file ⟨none⟩).isOk = false ↔ (Json3Doc.mk none).events = none) ∧
    extractEvents ([] ++ Event.mk none :: []) = extractEvents ([] ++ []) ∧
    extractSegs ([] ++ Seg.mk none :: []) = extractSegs ([] ++ []) :=
  c9_error_handling ⟨none⟩ ⟨none⟩ ⟨none⟩ [] [] [] [] rfl rfl

theorem hasLineSpan_tail (o c x : Char) (r : Str)
    (h : hasLineSpan o c (x :: r) = false) : hasLineSpan o c r = false := by
  by_cases hxo : x = o
  · simp only [hasLineSpan, if_pos hxo, Bool.or_eq_false_iff] at h
    exact h.2
  · simpa only [hasLineSpan, if_neg hxo] using h

theorem hasLineSpan_findClose (o c c2 : Char) :
    ∀ l l2 : Str, findClose c2 l = some l2 →
      hasLineSpan o c l = false → hasLineSpan o c l2 = false := by
  intro l
  induction l with
  | nil => intro l2 h _; simp [findClose] at h
  | cons x rest ih =>
    intro l2 h hl
    have hrest : hasLineSpan o c rest = false := hasLineSpan_tail o c x rest hl
    by_cases hxc : x = c2
    · simp only [findClose, if_pos hxc, Option.some.injEq] at h
      subst h
      exact hrest
    · by_cases hxn : x = '\n'
      · subst hxn
        simp [findClose, hxc] at h
      · simp only [findClose, if_neg hxc, if_neg hxn] at h
        exact ih l2 h hrest

theorem findClose_drop_none (c c2 : Char) (hc2 : c2 ≠ '\n') :
    ∀ r r3 : Str, findClose c2 r = some r3 → findClose c r = none → findClose c r3 = none := by
  intro r
  induction r with
  | nil => intro r3 h _; simp [findClose] at h
  | cons z zs ih =>
    intro r3 h hn
    by_cases hzc2 : z = c2
    · simp only [findClose, if_pos hzc2, Option.some.injEq] at h
      subst h
      have hzn : z ≠ '\n' := by rw [hzc2]; exact hc2
      by_cases hzc : z = c
      · simp [findClose, hzc] at hn
      · simpa only [findClose, if_neg hzc, if_neg hzn] using hn
    · by_cases hzn : z = '\n'
      · subst hzn
        simp [findClose, hzc2] at h
      · simp only [findClose, if_neg hzc2, if_neg hzn] at h
        by_cases hzc : z = c
        · simp [findClose, hzc] at hn
        · simp only [findClose, if_neg hzc, if_neg hzn] at hn
          exact ih r3 h hn

theorem findClose_none_rsGo (c o2 c2 : Char) (ho2 : o2 ≠ '\n') (hc2 : c2 ≠ '\n') :
    ∀ (l : Str) (mode : Bool),
      (mode = true → ∃ l3, findClose c2 l = some l3 ∧ findClose c l3 = none) →
      (mode = false → findClose c l = none) →
      findClose c (rsGo o2 c2 mode l) = none := by
  intro l
  induction l with
  | nil => intro mode _ _; cases mode <;> simp [rsGo, findClose]
  | cons y r ih =>
    intro mode ht hf
    cases mode with
    | true =>
      obtain ⟨l3, hsome, hnone⟩ := ht rfl
      by_cases hyc2 : y = c2
      · simp only [rsGo, if_pos hyc2]
        simp only [findClose, if_pos hyc2, Option.some.injEq] at hsome
        subst hsome
        exact ih false (fun h => by simp at h) (fun _ => hnone)
      · by_cases hyn : y = '\n'
        · subst hyn
          simp [findClose, hyc2] at hsome
        · simp only [findClose, if_neg hyc2, if_neg hyn] at hsome
          simp only [rsGo, if_neg hyc2]
          exact ih true (fun _ => ⟨l3, hsome, hnone⟩) (fun h => by simp at h)
    | false =>
      have hn := hf rfl
      by_cases hcond : y = o2 ∧ (findClose c2 r).isSome
      · simp only [rsGo, if_pos hcond]
        obtain ⟨hyo2, hsome⟩ := hcond
        obtain ⟨r3, hr3⟩ := Option.isSome_iff_exists.mp hsome
        have hyn : y ≠ '\n' := by rw [hyo2]; exact ho2
        have hyc : y ≠ c := by
          intro h
          simp [findClose, h] at hn
        simp only [findClose, if_neg hyc, if_neg hyn] at hn
        exact ih true
          (fun _ => ⟨r3, hr3, findClose_drop_none c c2 hc2 r r3 hr3 hn⟩)
          (fun h => by simp at h)
      · simp only [rsGo, if_neg hcond]
        by_cases hyc : y = c
        · exfalso
          simp [findClose, hyc] at hn
        · by_cases hyn : y = '\n'
          · subst hyn
            simp [findClose, hyc]
          · simp only [findClose, if_neg hyc, if_neg hyn] at hn ⊢
            exact ih false (fun h => by simp at h) (fun _ => hn)

theorem rsGo_preserves_lineSpanFree (o c o2 c2 : Char) (ho2 : o2 ≠ '\n') (hc2 : c2 ≠ '\n') :
    ∀ (l : Str) (mode : Bool),
      (mode = true → ∃ l2, findClose c2 l = some l2 ∧ hasLineSpan o c l2 = false) →
      (mode = false → hasLineSpan o c l = false) →
      hasLineSpan o c (rsGo o2 c2 mode l) = false := by
  intro l
  induction l with
  | nil => intro mode _ _; cases mode <;> simp [rsGo, hasLineSpan]
  | cons x rest ih =>
    intro mode ht hf
    cases mode with
    | true =>
      obtain ⟨l2, hsome, hfree⟩ := ht rfl
      by_cases hxc2 : x = c2
      · simp only [rsGo, if_pos hxc2]
        simp only [findClose, if_pos hxc2, Option.some.injEq] at hsome
        subst hsome
        exact ih false (fun h => by simp at h) (fun _ => hfree)
      · by_cases hxn : x = '\n'
        · subst hxn
          simp [findClose, hxc2] at hsome
        · simp only [findClose, if_neg hxc2, if_neg hxn] at hsome
          simp only [rsGo, if_neg hxc2]
          exact ih true (fun _ => ⟨l2, hsome, hfree⟩) (fun h => by simp at h)
    | false =>
      have hfree := hf rfl
      have hrest : hasLineSpan o c rest = false := hasLineSpan_tail o c x rest hfree
      by_cases hcond : x = o2 ∧ (findClose c2 rest).isSome
      · simp only [rsGo, if_pos hcond]
        obtain ⟨hxo2, hsome⟩ := hcond
        obtain ⟨l2, hl2⟩ := Option.isSome_iff_exists.mp hsome
        exact ih true
          (fun _ => ⟨l2, hl2, hasLineSpan_findClose o c c2 rest l2 hl2 hrest⟩)
          (fun h => by simp at h)
      · simp only [rsGo, if_neg hcond]
        by_cases hxo : x = o
        · have hnone : findClose c rest = none := by
            cases hfc : findClose c rest with
            | some l3 =>
              exfalso
              simp only [hasLineSpan, if_pos hxo, hfc] at hfree
              simp at hfree
            | none => rfl
          have hout : findClose c (rsGo o2 c2 false rest) = none :=
            findClose_none_rsGo c o2 c2 ho2 hc2 rest false (fun h => by simp at h) (fun _ => hnone)
          have hrec : hasLineSpan o c (rsGo o2 c2 false rest) = false :=
            ih false (fun h => by simp at h) (fun _ => hrest)
          simp [hasLineSpan, hxo, hout, hrec]
        · have hrec : hasLineSpan o c (rsGo o2 c2 false rest) = false :=
            ih false (fun h => by simp at h) (fun _ => hrest)
          simp [hasLineSpan, hxo, hrec]

theorem rsGo_self_lineSpanFree (o c : Char) (ho : o ≠ '\n') (hc : c ≠ '\n') :
    ∀ (l : Str) (mode : Bool), hasLineSpan o c (rsGo o c mode l) = false := by
  intro l
  induction l with
  | nil => intro mode; cases mode <;> simp [rsGo, hasLineSpan]
  | cons x rest ih =>
    intro mode
    cases mode with
    | true =>
      by_cases hxc : x = c
      · simp only [rsGo, if_pos hxc]; exact ih false
      · simp only [rsGo, if_neg hxc]; exact ih true
    | false =>
      by_cases hcond : x = o ∧ (findClose c rest).isSome
      · simp only [rsGo, if_pos hcond]; exact ih true
      · simp only [rsGo, if_neg hcond]
        by_cases hxo : x = o
        · have hnone : findClose c rest = none := by
            cases hfc : findClose c rest with
            | some l3 => exact absurd ⟨hxo, by simp [hfc]⟩ hcond
            | none => rfl
          have hout : findClose c (rsGo o c false rest) = none :=
            findClose_none_rsGo c o c ho hc rest false (fun h => by simp at h) (fun _ => hnone)
          simp [hasLineSpan, hxo, hout, ih false]
        · simp [hasLineSpan, hxo, ih false]

theorem removeSpans_self_lineSpanFree (o c : Char) (ho : o ≠ '\n') (hc : c ≠ '\n') (l : Str) :
    hasLineSpan o c (removeSpans o c l) = false :=
  rsGo_self_lineSpanFree o c ho hc l false

theorem removeSpans_preserves_lineSpanFree (o c o2 c2 : Char) (ho2 : o2 ≠ '\n')
    (hc2 : c2 ≠ '\n') (l : Str) (h : hasLineSpan o c l = false) :
    hasLineSpan o c (removeSpans o2 c2 l) = false :=
  rsGo_preserves_lineSpanFree o c o2 c2 ho2 hc2 l false (fun hh => by simp at hh) (fun _ => h)

/-- C4 as stated is false on the code: the input `"[a\nb]"` contains a
complete bracket span, yet all three span-removal substitutions leave it
unchanged, because Python `.` (without `re.DOTALL`) does not match the
newline between the opener and the closer. -/
theorem c4_counterexample :
    removeSpans '<' '>' (removeSpans '(' ')'
        (removeSpans '[' ']' ['[', 'a', '\n', 'b', ']']))
      = ['[', 'a', '\n', 'b', ']'] ∧
    containsSpan '[' ']' ['[', 'a', '\n', 'b', ']'] = true := by
  constructor
  · decide
  · decide

/-- C4 (amended): after the three span-removal substitutions of cleanup step
(f), applied in the order brackets, parentheses, angle brackets, the text
contains no complete `[...]`, `(...)`, or `<...>` span lying within a single
line; a span whose opener and closer are separated by a newline is not
removed. -/
theorem c4_span_removal_exhaustive_per_line (l : Str) :
    hasLineSpan '[' ']'
      (removeSpans '<' '>' (removeSpans '(' ')' (removeSpans '[' ']' l))) = false ∧
    hasLineSpan '(' ')'
      (removeSpans '<' '>' (removeSpans '(' ')' (removeSpans '[' ']' l))) = false ∧
    hasLineSpan '<' '>'
      (removeSpans '<' '>' (removeSpans '(' ')' (removeSpans '[' ']' l))) = false := by
  refine ⟨?_, ?_, ?_⟩
  · exact removeSpans_preserves_lineSpanFree '[' ']' '<' '>' (by decide) (by decide) _
      (removeSpans_preserves_lineSpanFree '[' ']' '(' ')' (by decide) (by decide) _
        (removeSpans_self_lineSpanFree '[' ']' (by decide) (by decide) l))
  · exact removeSpans_preserves_lineSpanFree '(' ')' '<' '>' (by decide) (by decide) _
      (removeSpans_self_lineSpanFree '(' ')' (by decide) (by decide) _)
  · exact removeSpans_self_lineSpanFree '<' '>' (by decide) (by decide) _

theorem latin_not_cjk (c : Char) (h : isLatinDigit c = true) : isCJK c = false := by
  simp only [isLatinDigit, decide_eq_true_eq] at h
  simp only [isCJK, decide_eq_false_iff_not]
  omega

theorem cjk_not_latin (c : Char) (h : isCJK c = true) : isLatinDigit c = false := by
  simp only [isCJK, decide_eq_true_eq] at h
  simp only [isLatinDigit, decide_eq_false_iff_not]
  omega

theorem zhCJKLatin_head : ∀ l : Str, (zhCJKLatin l).head? = l.head? := by
  intro l
  match l with
  | [] => rfl
  | [c] => rfl
  | c :: d :: rest =>
    simp only [zhCJKLatin]
    split <;> rfl

theorem zhLatinCJK_head : ∀ l : Str, (zhLatinCJK l).head? = l.head? := by
  intro l
  match l with
  | [] => rfl
  | [c] => rfl
  | c :: d :: rest =>
    simp only [zhLatinCJK]
    split <;> rfl

theorem hasCJKLatinAdj_cons (d : Char) (M : Str)
    (h1 : ∀ x, M.head? = some x → (isCJK d && isLatinDigit x) = false)
    (h2 : hasCJKLatinAdj M = false) : hasCJKLatinAdj (d :: M) = false := by
  cases M with
  | nil => rfl
  | cons x xs => simp [hasCJKLatinAdj, h1 x rfl, h2]

theorem hasLatinCJKAdj_cons (d : Char) (M : Str)
    (h1 : ∀ x, M.head? = some x → (isLatinDigit d && isCJK x) = false)
    (h2 : hasLatinCJKAdj M = false) : hasLatinCJKAdj (d :: M) = false := by
  cases M with
  | nil => rfl
  | cons x xs => simp [hasLatinCJKAdj, h1 x rfl, h2]

theorem hasCJKLatinAdj_tail (c : Char) (M : Str)
    (h : hasCJKLatinAdj (c :: M) = false) : hasCJKLatinAdj M = false := by
  cases M with
  | nil => rfl
  | cons x xs =>
    simp only [hasCJKLatinAdj, Bool.or_eq_false_iff] at h
    exact h.2

theorem zhCJKLatin_no_adj : ∀ l : Str, hasCJKLatinAdj (zhCJKLatin l) = false := by
  intro l
  induction l using zhCJKLatin.induct with
  | case1 => rfl
  | case2 c => rfl
  | case3 c d rest h ih =>
    simp only [zhCJKLatin, if_pos h]
    have hd : isLatinDigit d = true := (Bool.and_eq_true_iff.mp h).2
    refine hasCJKLatinAdj_cons c _ ?_ ?_
    · intro x hx
      simp only [List.head?_cons, Option.some.injEq] at hx
      subst hx
      simp [(by decide : isLatinDigit ' ' = false)]
    refine hasCJKLatinAdj_cons ' ' _ ?_ ?_
    · intro x hx
      simp [(by decide : isCJK ' ' = false)]
    refine hasCJKLatinAdj_cons d _ ?_ ih
    intro x _
    simp [latin_not_cjk d hd]
  | case4 c d rest h ih =>
    simp only [zhCJKLatin, if_neg h]
    refine hasCJKLatinAdj_cons c _ ?_ ih
    intro x hx
    rw [zhCJKLatin_head (d :: rest)] at hx
    simp only [List.head?_cons, Option.some.injEq] at hx
    subst hx
    exact Bool.eq_false_iff.mpr h

theorem zhLatinCJK_no_adj : ∀ l : Str, hasLatinCJKAdj (zhLatinCJK l) = false := by
  intro l
  induction l using zhLatinCJK.induct with
  | case1 => rfl
  | case2 c => rfl
  | case3 c d rest h ih =>
    simp only [zhLatinCJK, if_pos h]
    have hd : isCJK d = true := (Bool.and_eq_true_iff.mp h).2
    refine hasLatinCJKAdj_cons c _ ?_ ?_
    · intro x hx
      simp only [List.head?_cons, Option.some.injEq] at hx
      subst hx
      simp [(by decide : isCJK ' ' = false)]
    refine hasLatinCJKAdj_cons ' ' _ ?_ ?_
    · intro x hx
      simp [(by decide : isLatinDigit ' ' = false)]
    refine hasLatinCJKAdj_cons d _ ?_ ih
    intro x _
    simp [cjk_not_latin d hd]
  | case4 c d rest h ih =>
    simp only [zhLatinCJK, if_neg h]
    refine hasLatinCJKAdj_cons c _ ?_ ih
    intro x hx
    rw [zhLatinCJK_head (d :: rest)] at hx
    simp only [List.head?_cons, Option.some.injEq] at hx
    subst hx
    exact Bool.eq_false_iff.mpr h

theorem zhLatinCJK_preserves_no_CJKLatin :
    ∀ l : Str, hasCJKLatinAdj l = false → hasCJKLatinAdj (zhLatinCJK l) = false := by
  intro l
  induction l using zhLatinCJK.induct with
  | case1 => intro _; rfl
  | case2 c => intro _; rfl
  | case3 c d rest h ih =>
    intro hl
    simp only [zhLatinCJK, if_pos h]
    have htail : hasCJKLatinAdj (d :: rest) = false := hasCJKLatinAdj_tail c _ hl
    have hrest : hasCJKLatinAdj rest = false := hasCJKLatinAdj_tail d _ htail
    refine hasCJKLatinAdj_cons c _ ?_ ?_
    · intro x hx
      simp only [List.head?_cons, Option.some.injEq] at hx
      subst hx
      simp [(by decide : isLatinDigit ' ' = false)]
    refine hasCJKLatinAdj_cons ' ' _ ?_ ?_
    · intro x hx
      simp [(by decide : isCJK ' ' = false)]
    refine hasCJKLatinAdj_cons d _ ?_ (ih hrest)
    intro x hx
    rw [zhLatinCJK_head rest] at hx
    cases rest with
    | nil => simp at hx
    | cons r1 r2 =>
      simp only [List.head?_cons, Option.some.injEq] at hx
      subst hx
      simp only [hasCJKLatinAdj, Bool.or_eq_false_iff] at htail
      exact htail.1
  | case4 c d rest h ih =>
    intro hl
    simp only [zhLatinCJK, if_neg h]
    have htail : hasCJKLatinAdj (d :: rest) = false := hasCJKLatinAdj_tail c _ hl
    refine hasCJKLatinAdj_cons c _ ?_ (ih htail)
    intro x hx
    rw [zhLatinCJK_head (d :: rest)] at hx
    simp only [List.head?_cons, Option.some.injEq] at hx
    subst hx
    simp only [hasCJKLatinAdj, Bool.or_eq_false_iff] at hl
    exact hl.1

/-- C6 as stated is false on the code: in `"中 中 中"` the first `zh`
substitution consumes the middle CJK character as the right anchor of its
first match, and the `re` scanner resumes after it, so the second
whitespace gap between adjacent CJK characters survives. -/
theorem c6_counterexample :
    language_specific_cleaning_zh ['中', ' ', '中', ' ', '中'] = ['中', '中', ' ', '中'] ∧
    hasCJKGap (language_specific_cleaning_zh ['中', ' ', '中', ' ', '中']) = true := by
  exact ⟨by decide, by decide⟩

/-- C6 (amended): for `languageCode = "zh"`, whitespace between adjacent CJK
pairs is removed only for the non-overlapping left-to-right matches of the
`re` scanner (a CJK character consumed as the right anchor of one match
cannot anchor the next, so for instance in `"中 中 中"` one gap survives);
between a CJK character and a directly adjacent Latin letter or digit a
single space is inserted, in either order, and the final text has no CJK
character directly adjacent to a Latin letter or digit. -/
theorem c6_zh_cleaning (s : Str) :
    hasCJKLatinAdj (language_specific_cleaning_zh s) = false ∧
    hasLatinCJKAdj (language_specific_cleaning_zh s) = false ∧
    language_specific_cleaning_zh ['中', ' ', '中'] = ['中', '中'] ∧
    language_specific_cleaning_zh ['中', 'a'] = ['中', ' ', 'a'] ∧
    language_specific_cleaning_zh ['a', '中'] = ['a', ' ', '中'] := by
  refine ⟨?_, ?_, by decide, by decide, by decide⟩
  · exact zhLatinCJK_preserves_no_CJKLatin _ (zhCJKLatin_no_adj (zhRemoveGaps s))
  · exact zhLatinCJK_no_adj _

/-- C1 is violated by the code: `clean_text` collapses every whitespace run,
including the `"\n\n"` paragraph separators of step (e), to one space.  On
the run with fragments `["A.","B.","C.","D."]`, `format_paragraphs` emits
the paragraph boundary between `"C."` and `"D."` as `"\n\n"`, but the final
cleaned text contains no newline at all. -/
theorem c1_paragraph_breaks_collapsed :
    format_paragraphs ["A.".toList, "B.".toList, "C.".toList, "D.".toList]
      = "A. B. C.\n\nD.".toList ∧
    clean_text (format_paragraphs ["A.".toList, "B.".toList, "C.".toList, "D.".toList])
      = "A. B. C. D.".toList ∧
    ¬ '\n' ∈ clean_text (format_paragraphs ["A.".toList, "B.".toList, "C.".toList, "D.".toList]) := by
  refine ⟨by decide, by decide, by decide⟩

theorem mark_not_space (m : Char) (h : isMark m = true) : isPySpace m = false := by
  simp only [isMark, Bool.or_eq_true, decide_eq_true_eq] at h
  rcases h with (h | h) | h <;> subst h <;> decide

theorem getLast?_cons_ne_nil (a : Char) (l : Str) (h : l ≠ []) :
    (a :: l).getLast? = l.getLast? := by
  cases l with
  | nil => exact absurd rfl h
  | cons b bs => exact List.getLast?_cons_cons

theorem ne_nil_of_getLast?_eq_some (l : Str) (c : Char) (h : l.getLast? = some c) :
    l ≠ [] := by
  intro he
  subst he
  simp at h

theorem exists_getLast? : ∀ l : Str, l ≠ [] → ∃ c, l.getLast? = some c := by
  intro l
  induction l with
  | nil => intro h; exact absurd rfl h
  | cons a as ih =>
    intro _
    cases has : as with
    | nil => exact ⟨a, by simp⟩
    | cons b bs =>
      obtain ⟨c, hc⟩ := ih (by rw [has]; simp)
      rw [has] at hc
      exact ⟨c, by rw [getLast?_cons_ne_nil a _ (by simp), hc]⟩

theorem getLast?_append_cons (l1 : Str) (c : Char) (l2 : Str) :
    (l1 ++ c :: l2).getLast? = (c :: l2).getLast? := by
  induction l1 with
  | nil => rfl
  | cons a as ih =>
    show (a :: (as ++ c :: l2)).getLast? = _
    rw [getLast?_cons_ne_nil a _ (by simp), ih]

theorem headNoSpace_reverse (l : Str) : headNoSpace l.reverse = lastNoSpace l := by
  unfold headNoSpace lastNoSpace
  rw [List.head?_reverse]

theorem lastNoSpace_reverse (l : Str) : lastNoSpace l.reverse = headNoSpace l := by
  unfold headNoSpace lastNoSpace
  rw [List.getLast?_reverse]

theorem lastNoSpace_tail (c : Char) (rest : Str) (h : lastNoSpace (c :: rest) = true) :
    lastNoSpace rest = true := by
  cases rest with
  | nil => rfl
  | cons b bs =>
    unfold lastNoSpace at h ⊢
    rw [getLast?_cons_ne_nil c _ (by simp)] at h
    exact h

theorem lastNoSpace_singleton_imp (c : Char) (rest : Str) (hrest : rest = [])
    (h : lastNoSpace (c :: rest) = true) : isPySpace c = false := by
  subst hrest
  simpa [lastNoSpace] using h

theorem not_isEmpty_of_ne_nil (p : Str) (h : p ≠ []) : (!p.isEmpty) = true := by
  cases p with
  | nil => exact absurd rfl h
  | cons c r => rfl

theorem joinSpaceL_ne_nil (segments : List Str) (hne : segments ≠ [])
    (h : ∀ s ∈ segments, s ≠ []) : joinSpaceL segments ≠ [] := by
  match segments with
  | [x] => exact h x (by simp)
  | x :: y :: rest =>
    show x ++ ' ' :: joinSpaceL (y :: rest) ≠ []
    simp

theorem joinSpaceL_head? (x : Str) (rest : List Str) (hx : x ≠ []) :
    (joinSpaceL (x :: rest)).head? = x.head? := by
  cases x with
  | nil => exact absurd rfl hx
  | cons c cs =>
    cases rest with
    | nil => rfl
    | cons y ys => rfl

theorem joinSpaceL_headNoSpace (segments : List Str) (hne : segments ≠ [])
    (h : ∀ s ∈ segments, s ≠ [] ∧ headNoSpace s = true) :
    headNoSpace (joinSpaceL segments) = true := by
  cases segments with
  | nil => exact absurd rfl hne
  | cons x rest =>
    have hx := h x (by simp)
    unfold headNoSpace
    rw [joinSpaceL_head? x rest hx.1]
    have h2 := hx.2
    unfold headNoSpace at h2
    exact h2

theorem joinSpaceL_lastNoSpace (segments : List Str)
    (h : ∀ s ∈ segments, s ≠ [] ∧ lastNoSpace s = true) :
    lastNoSpace (joinSpaceL segments) = true := by
  induction segments using joinSpaceL.induct with
  | case1 => rfl
  | case2 x => exact (h x (by simp)).2
  | case3 x y rest ih =>
    show lastNoSpace (x ++ ' ' :: joinSpaceL (y :: rest)) = true
    have hJ : joinSpaceL (y :: rest) ≠ [] :=
      joinSpaceL_ne_nil (y :: rest) (by simp)
        (fun s hs => (h s (List.mem_cons_of_mem x hs)).1)
    unfold lastNoSpace
    rw [getLast?_append_cons, getLast?_cons_ne_nil ' ' _ hJ]
    have h2 := ih (fun s hs => h s (List.mem_cons_of_mem x hs))
    unfold lastNoSpace at h2
    exact h2

theorem subWsMark_head? (s : Str) (h : headNoSpace s = true) :
    (subWsMark s).head? = s.head? := by
  cases s with
  | nil => rfl
  | cons c rest =>
    have hc : isPySpace c = false := by simpa [headNoSpace] using h
    simp [subWsMark, hc]

theorem subWsMark_getLast? (s : Str) :
    ∀ c, s.getLast? = some c → isPySpace c = false → (subWsMark s).getLast? = some c := by
  induction s with
  | nil => intro c hc _; simp at hc
  | cons x rest ih =>
    intro c hc hns
    by_cases hcond : (isPySpace x && markAfterSpaces rest) = true
    · have hrne : rest ≠ [] := by
        intro he
        subst he
        simp [markAfterSpaces] at hcond
      rw [getLast?_cons_ne_nil x rest hrne] at hc
      simp only [subWsMark, if_pos hcond]
      exact ih c hc hns
    · simp only [subWsMark, if_neg hcond]
      cases hrest : rest with
      | nil =>
        subst hrest
        simp only [List.getLast?_singleton, Option.some.injEq] at hc
        subst hc
        simp [subWsMark]
      | cons r rs =>
        subst hrest
        rw [getLast?_cons_ne_nil x _ (by simp)] at hc
        have hlast := ih c hc hns
        rw [getLast?_cons_ne_nil x _ (ne_nil_of_getLast?_eq_some _ c hlast)]
        exact hlast

theorem subMarkWord_ne_nil (s : Str) (h : s ≠ []) : subMarkWord s ≠ [] := by
  match s with
  | [] => exact absurd rfl h
  | [c] => simp [subMarkWord]
  | c :: d :: rest =>
    simp only [subMarkWord]
    split <;> simp

theorem subMarkWord_head? (s : Str) : (subMarkWord s).head? = s.head? := by
  match s with
  | [] => rfl
  | [c] => rfl
  | c :: d :: rest =>
    simp only [subMarkWord]
    split <;> rfl

theorem subMarkWord_getLast? (s : Str) : (subMarkWord s).getLast? = s.getLast? := by
  induction s using subMarkWord.induct with
  | case1 => rfl
  | case2 c => rfl
  | case3 c d rest h ih =>
    simp only [subMarkWord, if_pos h]
    cases hr : rest with
    | nil =>
      subst hr
      simp [subMarkWord, List.getLast?_cons_cons]
    | cons r rs =>
      subst hr
      have hne : subMarkWord (r :: rs) ≠ [] := subMarkWord_ne_nil _ (by simp)
      rw [getLast?_cons_ne_nil c _ (by simp), getLast?_cons_ne_nil ' ' _ (by simp),
        getLast?_cons_ne_nil d _ hne, ih,
        getLast?_cons_ne_nil c _ (by simp), getLast?_cons_ne_nil d _ (by simp)]
  | case4 c d rest h ih =>
    simp only [subMarkWord, if_neg h]
    have hne : subMarkWord (d :: rest) ≠ [] := subMarkWord_ne_nil _ (by simp)
    rw [getLast?_cons_ne_nil c _ hne, ih, getLast?_cons_ne_nil c _ (by simp)]

theorem splitGo_pieces :
    ∀ (l : Str) (run pm : Bool) (cur : Str),
      (run = true → cur = []) →
      (pm = true → ∃ m, cur.head? = some m ∧ isMark m = true) →
      lastNoSpace cur = true →
      (run = false → cur = [] → headNoSpace l = true) →
      lastNoSpace l = true →
      (l = [] → run = false ∧ cur ≠ [] ∧ headNoSpace cur = true) →
      ∀ p ∈ splitGo run pm cur l,
        p ≠ [] ∧ headNoSpace p = true ∧ lastNoSpace p = true := by
  intro l
  induction l with
  | nil =>
    intro run pm cur hrun hpm hcl h4 hl hend p hp
    obtain ⟨hrf, hcne, hch⟩ := hend rfl
    have hp2 : p = cur.reverse := by
      cases run <;> simpa [splitGo] using hp
    subst hp2
    refine ⟨by simpa using hcne, ?_, ?_⟩
    · rw [headNoSpace_reverse]; exact hcl
    · rw [lastNoSpace_reverse]; exact hch
  | cons c rest ih =>
    intro run pm cur hrun hpm hcl h4 hl hend p hp
    cases run with
    | true =>
      have hcur : cur = [] := hrun rfl
      subst hcur
      by_cases hsp : isPySpace c = true
      · rw [show splitGo true pm [] (c :: rest) = splitGo true false [] rest from by
          simp [splitGo, hsp]] at hp
        have hrne : rest ≠ [] := by
          intro he
          have hf := lastNoSpace_singleton_imp c rest he hl
          rw [hf] at hsp
          exact Bool.noConfusion hsp
        exact ih true false [] (fun _ => rfl) (fun h => Bool.noConfusion h) rfl
          (fun h => Bool.noConfusion h) (lastNoSpace_tail c rest hl)
          (fun h => absurd h hrne) p hp
      · rw [show splitGo true pm [] (c :: rest) = splitGo false (isMark c) [c] rest from by
          simp [splitGo, hsp]] at hp
        have hspf : isPySpace c = false := by
          cases hv : isPySpace c with
          | false => rfl
          | true => exact absurd hv hsp
        exact ih false (isMark c) [c] (fun h => Bool.noConfusion h)
          (fun hm => ⟨c, rfl, hm⟩) (by simp [lastNoSpace, hspf])
          (fun _ h => absurd h (by simp)) (lastNoSpace_tail c rest hl)
          (fun _ => ⟨rfl, by simp, by simp [headNoSpace, hspf]⟩) p hp
    | false =>
      by_cases hbr : (pm && isPySpace c) = true
      · obtain ⟨hpmt, hspt⟩ := Bool.and_eq_true_iff.mp hbr
        obtain ⟨m, hm1, hm2⟩ := hpm hpmt
        rw [show splitGo false pm cur (c :: rest)
            = cur.reverse :: splitGo true false [] rest from by
          simp [splitGo, hbr]] at hp
        have hrne : rest ≠ [] := by
          intro he
          have hf := lastNoSpace_singleton_imp c rest he hl
          rw [hf] at hspt
          exact Bool.noConfusion hspt
        rcases List.mem_cons.mp hp with hp1 | hp1
        · subst hp1
          have hcne : cur ≠ [] := by
            intro he
            subst he
            simp at hm1
          refine ⟨by simpa using hcne, ?_, ?_⟩
          · rw [headNoSpace_reverse]; exact hcl
          · rw [lastNoSpace_reverse]
            unfold headNoSpace
            rw [hm1]
            simp [mark_not_space m hm2]
        · exact ih true false [] (fun _ => rfl) (fun h => Bool.noConfusion h) rfl
            (fun h => Bool.noConfusion h) (lastNoSpace_tail c rest hl)
            (fun h => absurd h hrne) p hp1
      · rw [show splitGo false pm cur (c :: rest)
            = splitGo false (isMark c) (c :: cur) rest from by
          simp [splitGo, hbr]] at hp
        refine ih false (isMark c) (c :: cur) (fun h => Bool.noConfusion h)
          (fun hm => ⟨c, rfl, hm⟩) ?_ (fun _ h => absurd h (by simp))
          (lastNoSpace_tail c rest hl) ?_ p hp
        · cases hcv : cur with
          | nil =>
            have hcf : isPySpace c = false := by
              have hh := h4 rfl hcv
              simpa [headNoSpace] using hh
            simp [lastNoSpace, hcf]
          | cons b bs =>
            unfold lastNoSpace
            rw [getLast?_cons_ne_nil c (b :: bs) (by simp)]
            have h2 := hcl
            rw [hcv] at h2
            unfold lastNoSpace at h2
            exact h2
        · intro hre
          have hcf : isPySpace c = false := lastNoSpace_singleton_imp c rest hre hl
          exact ⟨rfl, by simp, by simp [headNoSpace, hcf]⟩

theorem groupSentsAux_flatten :
    ∀ (pieces : List Str) (buf : List Str),
      (groupSentsAux buf pieces).flatten
        = buf ++ (pieces.map pyStrip).filter (fun s => !s.isEmpty) := by
  intro pieces
  induction pieces with
  | nil =>
    intro buf
    cases buf with
    | nil => simp [groupSentsAux]
    | cons b bs => simp [groupSentsAux]
  | cons p rest ih =>
    intro buf
    by_cases h1 : (pyStrip p).isEmpty = true
    · simp only [groupSentsAux, if_pos h1]
      rw [ih]
      simp [List.filter_cons, h1]
    · by_cases h2 : 3 ≤ (buf ++ [pyStrip p]).length ∧
          (endsWithMark (pyStrip p) || hasIndicator (pyStrip p)) = true
      · simp only [groupSentsAux, if_neg h1, if_pos h2, List.flatten_cons]
        rw [ih]
        simp [List.filter_cons, h1, List.append_assoc]
      · simp only [groupSentsAux, if_neg h1, if_neg h2]
        rw [ih]
        simp [List.filter_cons, h1, List.append_assoc]

theorem dropWhile_eq_self_of_headNoSpace (s : Str) (h : headNoSpace s = true) :
    s.dropWhile isPySpace = s := by
  cases s with
  | nil => rfl
  | cons c rest =>
    have hc : isPySpace c = false := by simpa [headNoSpace] using h
    simp [List.dropWhile_cons, hc]

theorem pyStrip_eq_self (s : Str) (h1 : headNoSpace s = true) (h2 : lastNoSpace s = true) :
    pyStrip s = s := by
  unfold pyStrip
  rw [dropWhile_eq_self_of_headNoSpace s h1]
  rw [dropWhile_eq_self_of_headNoSpace s.reverse (by rw [headNoSpace_reverse]; exact h2)]
  exact List.reverse_reverse s

/-- C5: on every run whose fragment sequence is non-empty and consists of
trimmed non-empty fragments (as the Segment Extractor guarantees for every
downstream stage), paragraph grouping drops no sentence: the concatenation
of the emitted paragraphs' sentence groups is exactly the sentence sequence
produced by the sentence-splitting step, and a leftover buffer is emitted
as a final paragraph even when it holds fewer than three sentences. -/
theorem c5_paragraphs_preserve_sentences (segments : List Str)
    (hne : segments ≠ [])
    (hseg : ∀ s ∈ segments, s ≠ [] ∧ headNoSpace s = true ∧ lastNoSpace s = true) :
    (groupSents (splitSentences (subMarkWord (subWsMark (joinSpaceL segments))))).flatten
      = splitSentences (subMarkWord (subWsMark (joinSpaceL segments))) := by
  have htne : joinSpaceL segments ≠ [] :=
    joinSpaceL_ne_nil segments hne (fun s hs => (hseg s hs).1)
  have hth : headNoSpace (joinSpaceL segments) = true :=
    joinSpaceL_headNoSpace segments hne (fun s hs => ⟨(hseg s hs).1, (hseg s hs).2.1⟩)
  have htl : lastNoSpace (joinSpaceL segments) = true :=
    joinSpaceL_lastNoSpace segments (fun s hs => ⟨(hseg s hs).1, (hseg s hs).2.2⟩)
  obtain ⟨z, hz⟩ := exists_getLast? (joinSpaceL segments) htne
  have hzns : isPySpace z = false := by
    unfold lastNoSpace at htl
    rw [hz] at htl
    simpa using htl
  have h1l : (subWsMark (joinSpaceL segments)).getLast? = some z :=
    subWsMark_getLast? (joinSpaceL segments) z hz hzns
  have h1ne : subWsMark (joinSpaceL segments) ≠ [] :=
    ne_nil_of_getLast?_eq_some _ z h1l
  have h1h : headNoSpace (subWsMark (joinSpaceL segments)) = true := by
    unfold headNoSpace
    rw [subWsMark_head? (joinSpaceL segments) hth]
    unfold headNoSpace at hth
    exact hth
  have h2ne : subMarkWord (subWsMark (joinSpaceL segments)) ≠ [] :=
    subMarkWord_ne_nil _ h1ne
  have h2h : headNoSpace (subMarkWord (subWsMark (joinSpaceL segments))) = true := by
    unfold headNoSpace
    rw [subMarkWord_head?]
    unfold headNoSpace at h1h
    exact h1h
  have h2l : lastNoSpace (subMarkWord (subWsMark (joinSpaceL segments))) = true := by
    unfold lastNoSpace
    rw [subMarkWord_getLast?, h1l]
    simpa using hzns
  have hpieces : ∀ p ∈ splitSentences (subMarkWord (subWsMark (joinSpaceL segments))),
      p ≠ [] ∧ headNoSpace p = true ∧ lastNoSpace p = true :=
    splitGo_pieces _ false false [] (fun h => Bool.noConfusion h)
      (fun h => Bool.noConfusion h) rfl (fun _ _ => h2h) h2l
      (fun h => absurd h h2ne)
  show (groupSentsAux [] _).flatten = _
  rw [groupSentsAux_flatten]
  have hmap : (splitSentences (subMarkWord (subWsMark (joinSpaceL segments)))).map pyStrip
      = splitSentences (subMarkWord (subWsMark (joinSpaceL segments))) := by
    have hcongr := List.map_congr_left
      (fun p hp => pyStrip_eq_self p (hpieces p hp).2.1 (hpieces p hp).2.2)
    rw [hcongr]
    simp
  rw [List.nil_append, hmap]
  exact List.filter_eq_self.mpr
    (fun p hp => not_isEmpty_of_ne_nil p (hpieces p hp).1)

/-- Witness for `c5_paragraphs_preserve_sentences` on the single trimmed
fragment `"Hi."`. -/
theorem c5_witness :
    (["Hi.".toList] : List Str) ≠ [] ∧
    (groupSents (splitSentences (subMarkWord (subWsMark (joinSpaceL ["Hi.".toList]))))).flatten
      = splitSentences (subMarkWord (subWsMark (joinSpaceL ["Hi.".toList]))) :=
  ⟨by decide, c5_paragraphs_preserve_sentences ["Hi.".toList] (by decide)
    (by
      intro s hs
      simp only [List.mem_singleton] at hs
      subst hs
      exact ⟨by decide, by decide, by decide⟩)⟩

end CleanSubtitle

